import Mathlib

/-!
Verification of the embedchain MongoDB vector-database adapter
(`embedchain/vectordb/mongodb.py` and `embedchain/config/vector_db/mongodb.py`)
against its natural-language specification.

The adapter is shallowly embedded: Python dicts become association lists,
the external document store becomes a list of records per collection, and
the store's filter language becomes a list of string-keyed filter entries
with an executable matching semantics covering exactly the filter shapes
the adapter emits (equality on a `metadata.`-prefixed field, `identifier`
membership via `$in`, and the `$near` vector hint, which constrains nothing
and only orders results).  Python exceptions become `Except` values and
mutation of caller-owned dicts is modelled with an explicit heap.
-/

namespace EmbedchainMongo

/-- Scalar values stored in metadata mappings (the embedding stays abstract:
documents carry an integer vector produced by the embedder function). -/
inductive Value where
  | str (s : String)
  | int (n : Int)
  | bool (b : Bool)
  deriving DecidableEq

/-- A Python dict used as a metadata mapping: an association list whose keys
are unique whenever it came from an actual dict. -/
abbrev Meta := List (String × Value)

/-- Python `d[k]` lookup (first binding wins; dicts never hold duplicates). -/
def lookupMeta : Meta → String → Option Value
  | [], _ => none
  | (k', v) :: rest, k => if k' = k then some v else lookupMeta rest k

/-- Python `d[k] = v`: replace the binding in place if the key is present,
otherwise append it (dicts preserve insertion order). -/
def setKey : Meta → String → Value → Meta
  | [], k, v => [(k, v)]
  | (k', v') :: rest, k, v =>
      if k' = k then (k, v) :: rest else (k', v') :: setKey rest k v

/-- Embedding function: one vector per input string (spec section 6:
`embed(list<string>) -> list<vector<float>>`, deterministic, one vector per
string); `embedding_fn` on a list is its element-wise map. -/
abbrev Embedder := String → List Int

/-- The values a Mongo filter entry can take in the queries this adapter
builds: `{field: v}`, `{identifier: {$in: ids}}`, `{embedding: {$near: vec}}`. -/
inductive FilterVal where
  | eq (v : Value)
  | inList (ids : List String)
  | near (vec : List Int)
  deriving DecidableEq

/-- A Mongo filter document: the string-keyed dict the adapter passes to
`find` / `delete_many` / `count_documents`. -/
abbrev Filter := List (String × FilterVal)

/-- A record as `add` inserts it into the collection.  The `score` field is
`none` for every record this adapter ever writes; it exists so that the
`doc.get("score", 0)` default in `query` is a real conditional. -/
structure Doc where
  identifier : String
  text : String
  metadata : Meta
  embedding : List Int
  score : Option Int
  deriving DecidableEq

/-- Strip a prefix, character by character. -/
def stripChars : List Char → List Char → Option (List Char)
  | [], cs => some cs
  | _ :: _, [] => none
  | p :: ps, c :: cs => if p = c then stripChars ps cs else none

/-- Recover `k` from a filter key of the form `"metadata." ++ k`. -/
def metaSuffix (key : String) : Option String :=
  (stripChars "metadata.".data key.data).map String.mk

/-- Matching semantics of one filter entry against a stored record, covering
the three entry shapes the adapter generates.  A `$near` entry matches every
record (it is an ordering hint; ordering itself is abstracted away). -/
def docMatchesEntry (d : Doc) (key : String) (fv : FilterVal) : Bool :=
  match fv with
  | .eq v =>
      match metaSuffix key with
      | some k => lookupMeta d.metadata k == some v
      | none => false
  | .inList ids => key == "identifier" && ids.contains d.identifier
  | .near _ => true

/-- A record matches a filter when it matches every entry. -/
def matchesFilter (d : Doc) (q : Filter) : Bool :=
  q.all (fun e => docMatchesEntry d e.1 e.2)

/-- The store's `find`: all records of the collection matching the filter,
in collection order. -/
def findDocs (coll : List Doc) (q : Filter) : List Doc :=
  coll.filter (fun d => matchesFilter d q)

/-- Mongo's `limit`: `0` means no limit, a positive `n` caps the result. -/
def mongoLimit (n : Nat) (l : List Doc) : List Doc :=
  if n = 0 then l else l.take n

/-- The `limit=` keyword of `find`: absent means no limit. -/
def applyLimit : Option Nat → List Doc → List Doc
  | none, l => l
  | some n, l => mongoLimit n l

/-- Filter translation shared by `get`, `query` and `delete`: the dict
comprehension id est set comprehension over items of the `where` dict,
`{"metadata." + k: v for k, v in where.items()}`.  Keys of a Python dict
are unique, so the comprehension is the element-wise map. -/
def translateWhere (w : Meta) : Filter :=
  w.map (fun kv => ("metadata." ++ kv.1, FilterVal.eq kv.2))

/-- Python `query[key] = value` on the filter dict being built. -/
def setFilterKey : Filter → String → FilterVal → Filter
  | [], k, v => [(k, v)]
  | (k', v') :: rest, k, v =>
      if k' = k then (k, v) :: rest else (k', v') :: setFilterKey rest k v

/-- The `_generate_query` helper: starts from the empty dict and assigns
`query["metadata." + key] = value` for each item of `where`, in order. -/
def generate_query (w : Meta) : Filter :=
  w.foldl (fun q kv => setFilterKey q ("metadata." ++ kv.1) (FilterVal.eq kv.2)) []

/-- Python truthiness of the optional `ids` / `where` arguments of `get`:
`None` and the empty container are falsy. -/
def truthy {α : Type} : Option (List α) → Bool
  | none => false
  | some l => !l.isEmpty

/-- The filter dict `get` builds: `identifier $in ids` when `ids` is truthy,
updated with the translated `where` entries when `where` is truthy. -/
def getFilter (ids : Option (List String)) (w : Option Meta) : Filter :=
  (match ids with
   | some l => if l.isEmpty then [] else [("identifier", FilterVal.inList l)]
   | none => []) ++
  (match w with
   | some m => if m.isEmpty then [] else translateWhere m
   | none => [])

/-- Result of `get`: the dict `{"ids": ..., "metadatas": ...}`. -/
structure GetResult where
  ids : List String
  metadatas : List Meta
  deriving DecidableEq

/-- The adapter's `get`: find with the built filter and the limit, then
collect each document's `identifier` and `metadata`. -/
def getOp (coll : List Doc) (ids : Option (List String)) (w : Option Meta)
    (limit : Option Nat) : GetResult :=
  let found := applyLimit limit (findDocs coll (getFilter ids w))
  ⟨found.map Doc.identifier, found.map Doc.metadata⟩

/-- The loop body of `add` over `zip(ids, documents, metadatas, embeddings)`:
sets `metadata["text"] = document` on the caller's mapping, then inserts the
record with a deep copy of the mutated mapping and `score` absent.  `zip`
truncates to the shortest list.  Returns the inserted records and the
caller's mappings as the loop leaves them. -/
def addRecords (f : Embedder) : List String → List String → List Meta →
    List Doc × List Meta
  | id :: ids, doc :: docs, m :: ms =>
      let m' := setKey m "text" (Value.str doc)
      let rest := addRecords f ids docs ms
      (⟨id, doc, m', f doc, none⟩ :: rest.1, m' :: rest.2)
  | _, _, _ => ([], [])

/-- The adapter's `add`: embeds the documents and inserts one record per
zipped tuple, appending to the collection in order (`insert_one`). -/
def addOp (f : Embedder) (coll : List Doc) (documents : List String)
    (metadatas : List Meta) (ids : List String) : List Doc × List Meta :=
  let r := addRecords f ids documents metadatas
  (coll ++ r.1, r.2)

/-- The filter dict `query` builds: the `$near` hint on `embedding`, updated
with the translated `where` entries when `where` is truthy. -/
def queryFilter (f : Embedder) (input_query : String) (w : Meta) : Filter :=
  [("embedding", FilterVal.near (f input_query))] ++
    (if w.isEmpty then [] else translateWhere w)

/-- Return type of `query`: a list of texts, or of (text, metadata) pairs
when citations are requested. -/
inductive QueryResult where
  | texts (ts : List String)
  | cited (cs : List (String × Meta))
  deriving DecidableEq

/-- The adapter's `query`: find with the `$near` filter, cap at `n_results`
(`cursor.limit`), then either collect the texts, or pair each text with the
record's metadata after assigning `metadata["score"] = doc.get("score", 0)`. -/
def queryOp (f : Embedder) (coll : List Doc) (input_query : String)
    (n_results : Nat) (w : Meta) (citations : Bool) : QueryResult :=
  let found := mongoLimit n_results (findDocs coll (queryFilter f input_query w))
  if citations then
    QueryResult.cited (found.map (fun d =>
      (d.text, setKey d.metadata "score" (Value.int (d.score.getD 0)))))
  else
    QueryResult.texts (found.map Doc.text)

/-- The adapter's `delete`: `delete_many` with the translated `where` filter
(no truthiness guard on `where`). -/
def deleteOp (coll : List Doc) (w : Meta) : List Doc :=
  coll.filter (fun d => !matchesFilter d (translateWhere w))

/-- The adapter's `count`: `count_documents({})` on the collection. -/
def countOp (coll : List Doc) : Nat :=
  (findDocs coll []).length

/-- Semantic reading of a `where` mapping: every listed metadata field holds
the listed value. -/
def matchesWhere (d : Doc) (w : Meta) : Bool :=
  w.all (fun kv => lookupMeta d.metadata kv.1 == some kv.2)

/-- Exceptions the adapter raises itself (everything else is delegated to
the external client and propagates unchanged). -/
inductive EcError where
  | valueError
  | typeError
  | attributeError
  deriving DecidableEq

/-- The adapter's state: the database (named collections of records), the
collection name configured on the config object, the `collection_name`
attribute set by initialization, and the optionally-set embedder. -/
structure DBState where
  configCollectionName : String
  collections : List (String × List Doc)
  collectionName : String
  embedder : Option Embedder

/-- The store's `list_collection_names()`. -/
def listCollectionNames (s : DBState) : List String :=
  s.collections.map Prod.fst

/-- Read the current collection: an absent collection reads as empty, as in
the document store. -/
def getColl (s : DBState) : List Doc :=
  ((s.collections.find? (fun p => p.1 == s.collectionName)).map Prod.snd).getD []

/-- State-level `count`. -/
def countState (s : DBState) : Nat :=
  countOp (getColl s)

/-- The store accesses `_initialize` can make, in order. -/
inductive StoreAccess where
  | listNames
  | createColl (name : String)
  deriving DecidableEq

/-- The adapter's `_initialize`, with the trace of store accesses it makes:
raises `ValueError` when no embedder is set (before touching the store),
otherwise sets `collection_name` from the config, lists the database's
collection names and creates the collection when it is missing. -/
def initRun (s : DBState) : Except EcError DBState × List StoreAccess :=
  match s.embedder with
  | none => (Except.error EcError.valueError, [])
  | some _ =>
      let name := s.configCollectionName
      let s1 := { s with collectionName := name }
      if name ∈ listCollectionNames s then
        (Except.ok s1, [StoreAccess.listNames])
      else
        (Except.ok { s1 with collections := s1.collections ++ [(name, [])] },
         [StoreAccess.listNames, StoreAccess.createColl name])

/-- The adapter's `reset`: drop the current collection, then re-run
`_initialize` (which re-creates it). -/
def resetOp (s : DBState) : Except EcError DBState :=
  (initRun { s with
    collections := s.collections.filter (fun p => !(p.1 == s.collectionName)) }).1

/-- Write back the current collection after an insert: the store creates the
collection on first insert if it does not exist. -/
def setColl (cols : List (String × List Doc)) (name : String)
    (docs : List Doc) : List (String × List Doc) :=
  match cols with
  | [] => [(name, docs)]
  | p :: rest =>
      if p.1 == name then (name, docs) :: rest else p :: setColl rest name docs

/-- State-level `add`: accessing `self.embedder.embedding_fn` with no
embedder set fails; otherwise insert the records and return the caller's
mappings as mutated by the loop. -/
def addState (s : DBState) (documents : List String) (metadatas : List Meta)
    (ids : List String) : Except EcError (DBState × List Meta) :=
  match s.embedder with
  | none => Except.error EcError.attributeError
  | some f =>
      let r := addOp f (getColl s) documents metadatas ids
      Except.ok
        ({ s with collections := setColl s.collections s.collectionName r.1 },
         r.2)

/-- The configuration class `MongoDbConfig`: its constructor stores each
argument on the instance (`retry_writes` defaults to `True`, every other
field to `None`). -/
structure MongoDbConfig where
  uri : Option String
  collection_name : Option String
  username : Option String
  database_name : Option String
  password : Option String
  replica_set : Option String
  retry_writes : Option Bool
  app_name : Option String
  deriving DecidableEq

/-- The config built by `MongoDbConfig()` with no arguments. -/
def defaultMongoDbConfig : MongoDbConfig :=
  ⟨none, none, none, none, none, none, some true, none⟩

/-- The `config` argument of the adapter's constructor as Python sees it:
`None`, an actual `MongoDbConfig` instance, or a value of any other type. -/
inductive ConfigArg where
  | nullArg
  | valid (c : MongoDbConfig)
  | invalid
  deriving DecidableEq

/-- The constructor's config handling: `None` builds a default config, a
non-`MongoDbConfig` value raises `TypeError` before any attribute of the
adapter is assigned, and an instance is accepted as-is. -/
def mongoInit : ConfigArg → Except EcError MongoDbConfig
  | ConfigArg.nullArg => Except.ok defaultMongoDbConfig
  | ConfigArg.valid c => Except.ok c
  | ConfigArg.invalid => Except.error EcError.typeError

/-- A stored record in the heap model used for the aliasing behaviour of
`add`: the metadata field holds a heap address rather than an inline value,
so that sharing versus copying is observable. -/
structure HDoc where
  identifier : String
  text : String
  metadataRef : Nat
  deriving DecidableEq

/-- Read a metadata mapping from the heap. -/
def readMeta (heap : List Meta) (r : Nat) : Meta :=
  (heap[r]?).getD []

/-- The loop of `add` in the heap model, over `zip(ids, documents, refs)`
where each ref is the address of a caller-owned metadata dict:
`metadata["text"] = document` mutates the caller's cell in place, and
`copy.deepcopy(metadata)` allocates a fresh cell holding a snapshot, which
is what the inserted record references. -/
def addAliased (heap : List Meta) :
    List (String × String × Nat) → List HDoc × List Meta
  | [] => ([], heap)
  | (id, doc, r) :: rest =>
      let m' := setKey (readMeta heap r) "text" (Value.str doc)
      let heap1 := heap.set r m'
      let fresh := heap1.length
      let heap2 := heap1 ++ [m']
      let p := addAliased heap2 rest
      (⟨id, doc, fresh⟩ :: p.1, p.2)

/-- Stripping a list prefix from that prefix followed by anything yields the
remainder. -/
theorem stripChars_append (p cs : List Char) : stripChars p (p ++ cs) = some cs := by
  induction p with
  | nil => rfl
  | cons c ps ih => simp [stripChars, ih]

/-- Rebuilding a string from its character data is the identity. -/
theorem string_mk_data (s : String) : String.mk s.data = s := rfl

/-- The metadata filter-key suffix of `"metadata." ++ k` is `k`. -/
theorem metaSuffix_append (k : String) : metaSuffix ("metadata." ++ k) = some k := by
  unfold metaSuffix
  rw [String.data_append, stripChars_append]
  simp [string_mk_data]

/-- Prefixing with `"metadata."` is injective on keys. -/
theorem metaPrefix_inj {a b : String}
    (h : "metadata." ++ a = "metadata." ++ b) : a = b := by
  have := metaSuffix_append a
  rw [h, metaSuffix_append] at this
  exact (Option.some_injective _ this).symm

/-- An equality filter entry on `"metadata." ++ k` matches a record exactly
when the record's metadata holds `v` at `k`. -/
theorem docMatchesEntry_meta (d : Doc) (k : String) (v : Value) :
    docMatchesEntry d ("metadata." ++ k) (FilterVal.eq v)
      = (lookupMeta d.metadata k == some v) := by
  simp [docMatchesEntry, metaSuffix_append]

/-- Matching the translated `where` filter is the semantic reading of
`where`: every listed metadata field holds the listed value. -/
theorem matchesFilter_translateWhere (d : Doc) (w : Meta) :
    matchesFilter d (translateWhere w) = matchesWhere d w := by
  unfold matchesFilter translateWhere matchesWhere
  induction w with
  | nil => rfl
  | cons kv rest ih =>
      simp only [List.map_cons, List.all_cons, ih]
      rw [docMatchesEntry_meta d kv.1 kv.2]

/-- After `d[k] = v`, looking up `k` yields `v`. -/
theorem lookupMeta_setKey_self (m : Meta) (k : String) (v : Value) :
    lookupMeta (setKey m k v) k = some v := by
  induction m with
  | nil => simp [setKey, lookupMeta]
  | cons kv rest ih =>
      by_cases h : kv.1 = k
      · simp [setKey, lookupMeta, h]
      · simp [setKey, lookupMeta, h, ih]

/-- The empty filter matches every record. -/
theorem matchesFilter_nil (d : Doc) : matchesFilter d [] = true := rfl

/-- Finding with the empty filter returns the whole collection. -/
theorem findDocs_nil (coll : List Doc) : findDocs coll [] = coll := by
  simp [findDocs, matchesFilter_nil]

/-- Counting the collection counts all its records. -/
theorem countOp_eq_length (coll : List Doc) : countOp coll = coll.length := by
  simp [countOp, findDocs_nil]

/-- Counting entries of the translated filter that carry the key
`"metadata." ++ k` counts the occurrences of `k` among the input keys. -/
theorem translateWhere_countKey (w : Meta) (k : String) :
    (translateWhere w).countP (fun e => e.1 == "metadata." ++ k)
      = (w.map Prod.fst).countP (fun x => x == k) := by
  induction w with
  | nil => rfl
  | cons kv rest ih =>
      simp only [translateWhere, List.map_cons, List.countP_cons] at ih ⊢
      rw [ih]
      congr 1
      by_cases h : kv.1 = k
      · simp [h]
      · have hne : ¬("metadata." ++ kv.1 = "metadata." ++ k) :=
          fun hc => h (metaPrefix_inj hc)
        simp [h, hne]

/-- With the unique keys of an actual dict, each input key contributes
exactly one entry to the translated filter. -/
theorem where_key_once (w : Meta) (hnd : (w.map Prod.fst).Nodup)
    (kv : String × Value) (hm : kv ∈ w) :
    (translateWhere w).countP (fun e => e.1 == "metadata." ++ kv.1) = 1 := by
  rw [translateWhere_countKey]
  have hc : (w.map Prod.fst).countP (fun x => x == kv.1)
      = (w.map Prod.fst).count kv.1 := rfl
  rw [hc]
  exact List.count_eq_one_of_mem hnd (List.mem_map_of_mem Prod.fst hm)

/-- Assigning an absent key into the filter dict appends the binding. -/
theorem setFilterKey_of_not_mem (q : Filter) (k : String) (v : FilterVal)
    (h : k ∉ q.map Prod.fst) : setFilterKey q k v = q ++ [(k, v)] := by
  induction q with
  | nil => rfl
  | cons e rest ih =>
      simp only [List.map_cons, List.mem_cons] at h
      push_neg at h
      have h1 : ¬(e.1 = k) := fun hc => h.1 hc.symm
      simp [setFilterKey, h1, ih h.2]

/-- The assignment loop of `_generate_query`, started from any accumulator
none of whose keys will be assigned, appends exactly the translated
entries. -/
theorem generate_query_go (w : Meta) : ∀ acc : Filter,
    (∀ kv ∈ w, ("metadata." ++ kv.1) ∉ acc.map Prod.fst) →
    (w.map Prod.fst).Nodup →
    w.foldl (fun q kv =>
        setFilterKey q ("metadata." ++ kv.1) (FilterVal.eq kv.2)) acc
      = acc ++ translateWhere w := by
  induction w with
  | nil => intro acc _ _; simp [translateWhere]
  | cons kv rest ih =>
      intro acc hacc hnd
      simp only [List.map_cons, List.nodup_cons] at hnd
      simp only [List.foldl_cons]
      rw [setFilterKey_of_not_mem _ _ _ (hacc kv (List.mem_cons_self _ _))]
      rw [ih (acc ++ [("metadata." ++ kv.1, FilterVal.eq kv.2)]) ?_ hnd.2]
      · simp [translateWhere]
      · intro kv' h'
        simp only [List.map_append, List.mem_append]
        push_neg
        refine ⟨hacc kv' (List.mem_cons_of_mem _ h'), ?_⟩
        simp only [List.map_cons, List.map_nil, List.mem_singleton]
        intro hc
        exact hnd.1 (metaPrefix_inj hc ▸ List.mem_map_of_mem Prod.fst h')

/-- On any dict (unique keys), `_generate_query` builds exactly the
element-wise translated filter. -/
theorem generate_query_eq_translateWhere (w : Meta)
    (hnd : (w.map Prod.fst).Nodup) : generate_query w = translateWhere w := by
  unfold generate_query
  rw [generate_query_go w [] (by simp) hnd]
  simp

/-- C1: for every flat key-value mapping `where` (a dict, so its keys are
unique), the store filter derived from `where` — the `translateWhere`
mapping used verbatim by `get`, `query` and `delete`, and equal to what the
helper `_generate_query` builds — contains exactly one entry keyed
`"metadata." ++ k` for each key `k` of `where`, with the value unchanged,
and every entry of the derived filter arises from some key of `where`. -/
theorem filter_translation_exact (w : Meta) (hnd : (w.map Prod.fst).Nodup) :
    (∀ kv ∈ w,
        (translateWhere w).countP (fun e => e.1 == "metadata." ++ kv.1) = 1 ∧
        ("metadata." ++ kv.1, FilterVal.eq kv.2) ∈ translateWhere w) ∧
    (∀ e ∈ translateWhere w,
        ∃ kv, kv ∈ w ∧ e = ("metadata." ++ kv.1, FilterVal.eq kv.2)) ∧
    generate_query w = translateWhere w := by
  refine ⟨fun kv hm => ⟨where_key_once w hnd kv hm, List.mem_map_of_mem _ hm⟩,
    fun e he => ?_, generate_query_eq_translateWhere w hnd⟩
  rcases List.mem_map.mp he with ⟨kv, hkv, hfe⟩
  exact ⟨kv, hkv, hfe.symm⟩

/-- Witness for C1 at the concrete mapping
`where = [("a", 1), ("b", "x")]`. -/
theorem filter_translation_exact_witness :
    (∀ kv ∈ ([("a", Value.int 1), ("b", Value.str "x")] : Meta),
        (translateWhere [("a", Value.int 1), ("b", Value.str "x")]).countP
            (fun e => e.1 == "metadata." ++ kv.1) = 1 ∧
        ("metadata." ++ kv.1, FilterVal.eq kv.2)
          ∈ translateWhere [("a", Value.int 1), ("b", Value.str "x")]) ∧
    (∀ e ∈ translateWhere [("a", Value.int 1), ("b", Value.str "x")],
        ∃ kv, kv ∈ ([("a", Value.int 1), ("b", Value.str "x")] : Meta) ∧
          e = ("metadata." ++ kv.1, FilterVal.eq kv.2)) ∧
    generate_query [("a", Value.int 1), ("b", Value.str "x")]
      = translateWhere [("a", Value.int 1), ("b", Value.str "x")] :=
  filter_translation_exact [("a", Value.int 1), ("b", Value.str "x")]
    (by decide)

/-- The record built from the i-th zipped tuple is among the records `add`
inserts. -/
theorem addRecords_mem (f : Embedder) :
    ∀ (ids docs : List String) (ms : List Meta) (i : Nat)
      (hi : i < ids.length) (hd : i < docs.length) (hm : i < ms.length),
    (⟨ids[i], docs[i], setKey ms[i] "text" (Value.str docs[i]),
      f docs[i], none⟩ : Doc) ∈ (addRecords f ids docs ms).1 := by
  intro ids
  induction ids with
  | nil => intro docs ms i hi; simp at hi
  | cons id ids ih =>
      intro docs ms i hi hd hm
      cases docs with
      | nil => simp at hd
      | cons doc docs =>
          cases ms with
          | nil => simp at hm
          | cons m ms =>
              cases i with
              | zero => simp [addRecords]
              | succ n =>
                  simp only [addRecords, List.getElem_cons_succ]
                  exact List.mem_cons_of_mem _
                    (ih docs ms n (by simpa using hi) (by simpa using hd)
                      (by simpa using hm))

/-- C2: any record stored via `add(documents, metadatas, ids)` is returned
by a subsequent `get(ids=[id])`: the result's `ids` list contains the
stored id and its `metadatas` list contains the metadata stored for it
(the caller's mapping with `"text"` set to the document). -/
theorem add_get_roundtrip (f : Embedder) (coll : List Doc)
    (documents : List String) (metadatas : List Meta) (ids : List String)
    (i : Nat) (hi : i < ids.length) (hd : i < documents.length)
    (hm : i < metadatas.length) :
    ids[i] ∈ (getOp (addOp f coll documents metadatas ids).1
        (some [ids[i]]) none none).ids ∧
    setKey metadatas[i] "text" (Value.str documents[i])
      ∈ (getOp (addOp f coll documents metadatas ids).1
          (some [ids[i]]) none none).metadatas := by
  have hdmem : (⟨ids[i], documents[i],
      setKey metadatas[i] "text" (Value.str documents[i]),
      f documents[i], none⟩ : Doc) ∈ (addOp f coll documents metadatas ids).1 :=
    List.mem_append_right _ (addRecords_mem f ids documents metadatas i hi hd hm)
  have hfind : (⟨ids[i], documents[i],
      setKey metadatas[i] "text" (Value.str documents[i]),
      f documents[i], none⟩ : Doc)
      ∈ findDocs (addOp f coll documents metadatas ids).1
          (getFilter (some [ids[i]]) none) := by
    apply List.mem_filter.mpr
    refine ⟨hdmem, ?_⟩
    simp [getFilter, matchesFilter, docMatchesEntry]
  constructor
  · simpa [getOp, applyLimit] using List.mem_map_of_mem Doc.identifier hfind
  · simpa [getOp, applyLimit] using List.mem_map_of_mem Doc.metadata hfind

/-- Witness for C2: one document stored with one metadata field, then
fetched back by its id. -/
theorem add_get_roundtrip_witness :
    "id1" ∈ (getOp (addOp (fun _ => [(1 : Int)]) []
        ["hello"] [[("a", Value.int 1)]] ["id1"]).1 (some ["id1"]) none none).ids ∧
    setKey [("a", Value.int 1)] "text" (Value.str "hello")
      ∈ (getOp (addOp (fun _ => [(1 : Int)]) []
          ["hello"] [[("a", Value.int 1)]] ["id1"]).1
            (some ["id1"]) none none).metadatas := by
  simpa using add_get_roundtrip (fun _ => [(1 : Int)]) []
    ["hello"] [[("a", Value.int 1)]] ["id1"] 0
    (by decide) (by decide) (by decide)

/-- Capping a result list never invents records. -/
theorem mem_of_mongoLimit {n : Nat} {l : List Doc} {d : Doc}
    (h : d ∈ mongoLimit n l) : d ∈ l := by
  unfold mongoLimit at h
  split at h
  · exact h
  · exact List.mem_of_mem_take h

/-- C3: `query` returns the matched documents' text strings when
`citations=False`, and with `citations=True` a list of (text, metadata)
pairs whose metadata carries a `"score"` key; since the adapter stores no
score on any record, the default `doc.get("score", 0)` makes that score 0
whenever the collection's records carry no score. -/
theorem query_citations_shape (f : Embedder) (coll : List Doc) (iq : String)
    (n : Nat) (w : Meta) (hns : ∀ d ∈ coll, d.score = none) :
    queryOp f coll iq n w false
      = QueryResult.texts
          ((mongoLimit n (findDocs coll (queryFilter f iq w))).map Doc.text) ∧
    ∃ cs, queryOp f coll iq n w true = QueryResult.cited cs ∧
      ∀ p ∈ cs, lookupMeta p.2 "score" = some (Value.int 0) := by
  refine ⟨rfl, _, rfl, ?_⟩
  intro p hp
  rcases List.mem_map.mp hp with ⟨d, hd, hpd⟩
  have hdc : d ∈ coll :=
    (List.mem_filter.mp (mem_of_mongoLimit hd)).1
  rw [← hpd]
  simp [hns d hdc, lookupMeta_setKey_self]

/-- Witness for C3 on a one-record collection whose record (as every record
this adapter writes) carries no score. -/
theorem query_citations_shape_witness :
    queryOp (fun _ => [(1 : Int)])
        [⟨"i1", "t1", [("a", Value.int 1)], [1], none⟩] "q" 2 [] false
      = QueryResult.texts
          ((mongoLimit 2 (findDocs
              [⟨"i1", "t1", [("a", Value.int 1)], [1], none⟩]
              (queryFilter (fun _ => [(1 : Int)]) "q" []))).map Doc.text) ∧
    ∃ cs, queryOp (fun _ => [(1 : Int)])
        [⟨"i1", "t1", [("a", Value.int 1)], [1], none⟩] "q" 2 [] true
      = QueryResult.cited cs ∧
      ∀ p ∈ cs, lookupMeta p.2 "score" = some (Value.int 0) :=
  query_citations_shape (fun _ => [(1 : Int)])
    [⟨"i1", "t1", [("a", Value.int 1)], [1], none⟩] "q" 2 [] (by decide)

/-- Splitting a list by a predicate preserves its length. -/
theorem length_filter_add_length_filter_not {α : Type} (p : α → Bool)
    (l : List α) :
    (l.filter p).length + (l.filter fun a => !p a).length = l.length := by
  induction l with
  | nil => rfl
  | cons a l ih => by_cases h : p a <;> simp [List.filter, h] <;> omega

/-- C4: `delete(where)` leaves exactly the stored records that do not match
the translated filter — semantically, the records some listed metadata
field of which differs — removing all matching ones and no others, and
`count()` afterwards is the previous count minus the number of records
removed. -/
theorem delete_removes_exactly (coll : List Doc) (w : Meta) :
    deleteOp coll w = coll.filter (fun d => !matchesWhere d w) ∧
    countOp (deleteOp coll w)
      = countOp coll - (coll.filter (fun d => matchesWhere d w)).length := by
  have h1 : deleteOp coll w = coll.filter (fun d => !matchesWhere d w) := by
    unfold deleteOp
    apply List.filter_congr
    intro d _
    rw [matchesFilter_translateWhere]
  refine ⟨h1, ?_⟩
  rw [h1, countOp_eq_length, countOp_eq_length]
  have := length_filter_add_length_filter_not (fun d => matchesWhere d w) coll
  omega

/-- Looking for a name among the collections from which that name was
dropped finds nothing. -/
theorem find?_filter_ne (cols : List (String × List Doc)) (n : String) :
    (cols.filter (fun p => !(p.1 == n))).find? (fun p => p.1 == n) = none := by
  induction cols with
  | nil => rfl
  | cons p rest ih =>
      by_cases h : p.1 = n <;>
        simp [List.filter_cons, List.find?_cons, h, ih]

/-- When the first list holds no hit, `find?` over an append searches the
second list. -/
theorem find?_append_of_none {α : Type} (p : α → Bool) (l₁ l₂ : List α)
    (h : l₁.find? p = none) : (l₁ ++ l₂).find? p = l₂.find? p := by
  induction l₁ with
  | nil => rfl
  | cons a l ih =>
      cases hpa : p a
      · simp only [List.find?, hpa] at h
        simpa [List.find?, hpa] using ih h
      · simp [List.find?, hpa] at h

/-- C5: on any state whose embedder is set (and whose current collection is
the configured one, as every reachable state has), `reset` succeeds, the
re-created collection is empty (`count() == 0`) and remains usable: it is
listed among the database's collections, the embedder is still set, and a
subsequent `add` succeeds (`get`, `query`, `count` and `delete` are total
in this embedding and cannot fail). -/
theorem reset_empties_and_usable (s : DBState) (f : Embedder)
    (he : s.embedder = some f)
    (hc : s.collectionName = s.configCollectionName) :
    ∃ s', resetOp s = Except.ok s' ∧ countState s' = 0 ∧
      s'.collectionName ∈ listCollectionNames s' ∧ s'.embedder = some f ∧
      ∀ documents metadatas ids,
        ∃ r, addState s' documents metadatas ids = Except.ok r := by
  obtain ⟨cfg, cols, curr, emb⟩ := s
  simp only at he hc
  subst hc
  subst he
  have hnotin : curr ∉ listCollectionNames
      ⟨curr, cols.filter (fun p => !(p.1 == curr)), curr, some f⟩ := by
    intro hmem
    simp only [listCollectionNames] at hmem
    rcases List.mem_map.mp hmem with ⟨p, hp, hp1⟩
    have h2 := (List.mem_filter.mp hp).2
    rw [hp1] at h2
    simp at h2
  refine ⟨⟨curr, cols.filter (fun p => !(p.1 == curr)) ++ [(curr, [])],
    curr, some f⟩, ?_, ?_, ?_, rfl, ?_⟩
  · unfold resetOp initRun
    simp only [if_neg hnotin]
  · unfold countState getColl
    simp only
    rw [find?_append_of_none _ _ _ (find?_filter_ne cols curr)]
    simp [List.find?, countOp, findDocs]
  · simp [listCollectionNames]
  · intro documents metadatas ids
    exact ⟨_, rfl⟩

/-- Witness for C5 on a concrete state holding one record in collection
`"c"`, with an embedder set. -/
theorem reset_empties_and_usable_witness :
    ∃ s', resetOp ⟨"c",
        [("c", [⟨"i1", "t1", [("a", Value.int 1)], [1], none⟩])], "c",
        some (fun _ => [(1 : Int)])⟩ = Except.ok s' ∧
      countState s' = 0 ∧
      s'.collectionName ∈ listCollectionNames s' ∧
      s'.embedder = some (fun _ => [(1 : Int)]) ∧
      ∀ documents metadatas ids,
        ∃ r, addState s' documents metadatas ids = Except.ok r :=
  reset_empties_and_usable
    ⟨"c", [("c", [⟨"i1", "t1", [("a", Value.int 1)], [1], none⟩])], "c",
      some (fun _ => [(1 : Int)])⟩
    (fun _ => [(1 : Int)]) rfl rfl

/-- C6: with no embedder set, `_initialize` raises `ValueError` having made
no store access at all — in particular neither `list_collection_names` nor
`create_collection` is called (the access trace is empty). -/
theorem init_requires_embedder (s : DBState) (h : s.embedder = none) :
    initRun s = (Except.error EcError.valueError, []) := by
  unfold initRun
  rw [h]

/-- Witness for C6 on a concrete embedder-less state. -/
theorem init_requires_embedder_witness :
    initRun ⟨"c", [("c", [])], "c", none⟩
      = (Except.error EcError.valueError, []) :=
  init_requires_embedder ⟨"c", [("c", [])], "c", none⟩ rfl

/-- C7: constructing the adapter with a `config` that is not a
`MongoDbConfig` instance raises `TypeError` before any adapter state
exists; `config=None` builds the default config (`retry_writes=True`,
every other field `None`); an actual instance is taken as given. -/
theorem construct_validates_config :
    mongoInit ConfigArg.invalid = Except.error EcError.typeError ∧
    mongoInit ConfigArg.nullArg = Except.ok defaultMongoDbConfig ∧
    ∀ c : MongoDbConfig, mongoInit (ConfigArg.valid c) = Except.ok c :=
  ⟨rfl, rfl, fun _ => rfl⟩

/-- C8: `delete({})` translates the empty mapping to the empty store filter
— there is no emptiness guard in `delete`, so the empty filter is sent as
is — and the empty filter matches every record, so every record of the
collection is removed and none survives. -/
theorem delete_empty_where_removes_all (coll : List Doc) :
    translateWhere [] = ([] : Filter) ∧
    (coll.all fun d => matchesFilter d (translateWhere [])) = true ∧
    deleteOp coll [] = [] ∧
    countOp (deleteOp coll []) = 0 := by
  refine ⟨rfl, ?_, ?_, ?_⟩
  · simp [matchesFilter_nil, translateWhere]
  · simp [deleteOp, matchesFilter_nil, translateWhere]
  · simp [deleteOp, matchesFilter_nil, translateWhere, countOp_eq_length]

/-- C10: `get` treats an empty `ids` list and an empty `where` mapping
exactly like absent arguments — the filter it builds is the same — and
`get(ids=[])` applies no identifier constraint: it returns every record of
the collection, up to the limit, rather than no records. -/
theorem get_empty_ids_unconstrained (coll : List Doc) (limit : Option Nat) :
    getOp coll (some []) (some []) limit = getOp coll none none limit ∧
    getFilter (some []) (some []) = getFilter none none ∧
    getOp coll (some []) none limit
      = ⟨(applyLimit limit coll).map Doc.identifier,
         (applyLimit limit coll).map Doc.metadata⟩ := by
  refine ⟨rfl, rfl, ?_⟩
  unfold getOp
  rw [show getFilter (some []) none = [] from rfl, findDocs_nil]

/-- Behaviour of the `add` loop in the heap model, when every metadata
reference is a valid heap cell and the caller passed distinct mappings:
the heap grows by one fresh snapshot cell per item, untouched cells keep
their content, each caller cell ends up with `"text"` set to its document,
and each inserted record references a fresh cell (beyond the original
heap) holding exactly the mutated mapping's value. -/
theorem addAliased_spec (items : List (String × String × Nat)) :
    ∀ heap : List Meta,
    (∀ it ∈ items, it.2.2 < heap.length) →
    ((items.map (fun it => it.2.2)).Nodup) →
    ((addAliased heap items).2.length = heap.length + items.length) ∧
    ((addAliased heap items).1.length = items.length) ∧
    (∀ a, a < heap.length → a ∉ items.map (fun it => it.2.2) →
        (addAliased heap items).2[a]? = heap[a]?) ∧
    (∀ it ∈ items,
        readMeta (addAliased heap items).2 it.2.2
          = setKey (readMeta heap it.2.2) "text" (Value.str it.2.1)) ∧
    (∀ p ∈ (addAliased heap items).1.zip items,
        heap.length ≤ p.1.metadataRef ∧
        readMeta (addAliased heap items).2 p.1.metadataRef
          = setKey (readMeta heap p.2.2.2) "text" (Value.str p.2.2.1)) := by
  induction items with
  | nil =>
      intro heap _ _
      refine ⟨by simp [addAliased], by simp [addAliased], ?_, ?_, ?_⟩
      · intro a _ _; rfl
      · intro it hit; exact absurd hit (List.not_mem_nil it)
      · intro p hp; simp [addAliased] at hp
  | cons hd rest ih =>
      obtain ⟨id, doc, r⟩ := hd
      intro heap hvalid hnd
      simp only [List.map_cons, List.nodup_cons] at hnd
      have hr : r < heap.length := hvalid (id, doc, r) (List.mem_cons_self _ _)
      set m' := setKey (readMeta heap r) "text" (Value.str doc) with hm'
      set heap1 := heap.set r m' with hheap1
      set heap2 := heap1 ++ [m'] with hheap2
      have hlen1 : heap1.length = heap.length := List.length_set heap r m'
      have hlen2 : heap2.length = heap.length + 1 := by
        simp [hheap2, hlen1]
      have hvalid' : ∀ it ∈ rest, it.2.2 < heap2.length := by
        intro it hit
        have := hvalid it (List.mem_cons_of_mem _ hit)
        omega
      have hframe2 : ∀ a, a < heap.length → a ≠ r → heap2[a]? = heap[a]? := by
        intro a ha har
        rw [hheap2, List.getElem?_append_left (by omega),
          hheap1, List.getElem?_set_ne (Ne.symm har)]
      have hread2 : ∀ it, it ∈ rest → readMeta heap2 it.2.2 = readMeta heap it.2.2 := by
        intro it hit
        have hne : it.2.2 ≠ r := by
          intro hc
          exact hnd.1 (hc ▸ List.mem_map_of_mem (fun it => it.2.2) hit)
        unfold readMeta
        rw [hframe2 it.2.2 (hvalid it (List.mem_cons_of_mem _ hit)) hne]
      obtain ⟨ihlen, ihdlen, ihframe, ihmut, ihzip⟩ := ih heap2 hvalid' hnd.2
      have hstep : addAliased heap ((id, doc, r) :: rest)
          = (⟨id, doc, heap1.length⟩ :: (addAliased heap2 rest).1,
             (addAliased heap2 rest).2) := rfl
      refine ⟨?_, ?_, ?_, ?_, ?_⟩
      · rw [hstep]
        simp only [ihlen, hlen2, List.length_cons]
        omega
      · rw [hstep]
        simp [ihdlen]
      · intro a ha hnotm
        simp only [List.map_cons, List.mem_cons] at hnotm
        push_neg at hnotm
        rw [hstep]
        rw [ihframe a (by omega) hnotm.2]
        exact hframe2 a ha hnotm.1
      · intro it hit
        rcases List.mem_cons.mp hit with hhd | htl
        · subst hhd
          rw [hstep]
          simp only
          have h1 : readMeta (addAliased heap2 rest).2 r = readMeta heap2 r := by
            unfold readMeta
            rw [ihframe r (by omega) ?_]
            intro hc
            exact hnd.1 hc
          rw [h1]
          have h2 : readMeta heap2 r = m' := by
            unfold readMeta
            rw [hheap2, List.getElem?_append_left (by omega),
              hheap1, List.getElem?_set_self (by omega)]
            rfl
          rw [h2, hm']
        · rw [hstep]
          simp only
          rw [ihmut it htl, hread2 it htl]
      · intro p hp
        rw [hstep] at hp ⊢
        simp only [List.zip_cons_cons, List.mem_cons] at hp
        rcases hp with hphd | hptl
        · subst hphd
          simp only
          constructor
          · omega
          · have hfr : heap1.length ∉ rest.map (fun it => it.2.2) := by
              intro hc
              rcases List.mem_map.mp hc with ⟨it, hit, hev⟩
              have := hvalid it (List.mem_cons_of_mem _ hit)
              omega
            have h1 : readMeta (addAliased heap2 rest).2 heap1.length
                = readMeta heap2 heap1.length := by
              unfold readMeta
              rw [ihframe heap1.length (by omega) hfr]
            rw [h1]
            unfold readMeta
            rw [hheap2, List.getElem?_concat_length]
            rfl
        · have hp2 := (List.of_mem_zip hptl).2
          obtain ⟨hge, hrd⟩ := ihzip p hptl
          refine ⟨by omega, ?_⟩
          rw [hrd, hread2 p.2 hp2]

/-- C9: over valid, distinct caller-owned metadata cells, the `add` loop
(heap model `addAliased`, one item per zipped (id, document, metadata-cell)
tuple) mutates every caller-provided mapping by setting its `"text"` key to
the corresponding document, the stored record references a fresh cell
holding a deep copy of exactly that mutated value, and any later mutation
of a caller-owned cell leaves the stored record's metadata unchanged. -/
theorem add_deepcopy_isolation (heap : List Meta)
    (items : List (String × String × Nat))
    (hvalid : ∀ it ∈ items, it.2.2 < heap.length)
    (hnd : (items.map (fun it => it.2.2)).Nodup) :
    (∀ it ∈ items,
        readMeta (addAliased heap items).2 it.2.2
          = setKey (readMeta heap it.2.2) "text" (Value.str it.2.1)) ∧
    (∀ p ∈ (addAliased heap items).1.zip items,
        readMeta (addAliased heap items).2 p.1.metadataRef
          = setKey (readMeta heap p.2.2.2) "text" (Value.str p.2.2.1) ∧
        ∀ (r : Nat) (m : Meta), r < heap.length →
          readMeta ((addAliased heap items).2.set r m) p.1.metadataRef
            = readMeta (addAliased heap items).2 p.1.metadataRef) := by
  obtain ⟨_, _, _, hmut, hzip⟩ := addAliased_spec items heap hvalid hnd
  refine ⟨hmut, ?_⟩
  intro p hp
  obtain ⟨hge, hrd⟩ := hzip p hp
  refine ⟨hrd, ?_⟩
  intro r m hr
  unfold readMeta
  rw [List.getElem?_set_ne (by omega)]

/-- Witness for C9: one caller mapping at heap cell 0, one document. -/
theorem add_deepcopy_isolation_witness :
    (∀ it ∈ ([("id1", "hello", 0)] : List (String × String × Nat)),
        readMeta (addAliased [[("a", Value.int 1)]] [("id1", "hello", 0)]).2 it.2.2
          = setKey (readMeta [[("a", Value.int 1)]] it.2.2) "text"
              (Value.str it.2.1)) ∧
    (∀ p ∈ (addAliased [[("a", Value.int 1)]] [("id1", "hello", 0)]).1.zip
        ([("id1", "hello", 0)] : List (String × String × Nat)),
        readMeta (addAliased [[("a", Value.int 1)]] [("id1", "hello", 0)]).2
            p.1.metadataRef
          = setKey (readMeta [[("a", Value.int 1)]] p.2.2.2) "text"
              (Value.str p.2.2.1) ∧
        ∀ (r : Nat) (m : Meta), r < ([[("a", Value.int 1)]] : List Meta).length →
          readMeta ((addAliased [[("a", Value.int 1)]]
              [("id1", "hello", 0)]).2.set r m) p.1.metadataRef
            = readMeta (addAliased [[("a", Value.int 1)]]
                [("id1", "hello", 0)]).2 p.1.metadataRef) :=
  add_deepcopy_isolation [[("a", Value.int 1)]] [("id1", "hello", 0)]
    (by decide) (by decide)

end EmbedchainMongo
